import Mathlib

/-!
The etcd-lease-tool: the lease/key reconciliation loop of `main.go`

A shallow embedding of `main.go`.  Go's `int64` is `Int` (the range
`-2^63 ≤ i < 2^63` is a hypothesis where it matters, in the formatting of ids
and TTL values), Go's `string` is `String`, and a Go `map[int64]LeaseInfo` is
an association list without duplicate keys whose list order stands for the
order in which a `range` loop happens to enumerate the map.  One polling cycle
of the `for` loop in `main` is the function `reconcile` (lines 120-185)
followed by `tableRows` (lines 193-197); the store queries are assumed to
succeed (a failing query ends the process), their answers being the `Snapshot`
argument.  The routines of Go's standard library that `main.go` calls
(`sort.Slice`, `fmt.Sprintf` with `%016x`, `strconv.FormatInt`, `strings.Join`)
are embedded after their documented behaviour.
-/

namespace EtcdLeaseTool

/-! ## Data model -/

/-- The record kept per lease (`type LeaseInfo struct`). -/
structure LeaseInfo where
  ID : Int
  AttachedKeys : List String
  PrevAttachedKeys : List String
  GrantedTTL : Int
  TTL : Int
  deriving DecidableEq, Repr

/-- Lookup in the entry list of a map: the value of the first entry with key `k`. -/
def getEntries (k : Int) : List (Int × LeaseInfo) → Option LeaseInfo
  | [] => none
  | (k', v) :: l => if k' = k then some v else getEntries k l

/-- Assignment in the entry list of a map: an existing entry for `k` is
overwritten where it stands, a new key is added at the end. -/
def setEntries (k : Int) (v : LeaseInfo) : List (Int × LeaseInfo) → List (Int × LeaseInfo)
  | [] => [(k, v)]
  | (k', v') :: l => if k' = k then (k, v) :: l else (k', v') :: setEntries k v l

/-- Removal of key `k` from the entry list of a map. -/
def deleteEntries (k : Int) (l : List (Int × LeaseInfo)) : List (Int × LeaseInfo) :=
  l.filter (fun p => decide (p.1 ≠ k))

/-- The tracked state (`type LeaseKeysMapping map[int64]LeaseInfo`): entries with
pairwise distinct keys, listed in the map's (arbitrary) enumeration order. -/
structure LeaseKeysMapping where
  entries : List (Int × LeaseInfo)
  nodupKeys : (entries.map Prod.fst).Nodup

namespace LeaseKeysMapping

/-- The empty map (`make(LeaseKeysMapping)`). -/
def empty : LeaseKeysMapping := ⟨[], List.nodup_nil⟩

/-- Map read `v, ok := m[k]`: `some v` when `ok`, `none` otherwise. -/
def get (m : LeaseKeysMapping) (k : Int) : Option LeaseInfo :=
  getEntries k m.entries

/-- Map write `m[k] = v`. -/
def set (m : LeaseKeysMapping) (k : Int) (v : LeaseInfo) : LeaseKeysMapping :=
  ⟨setEntries k v m.entries, by
    have key : ∀ l : List (Int × LeaseInfo), (l.map Prod.fst).Nodup →
        ((setEntries k v l).map Prod.fst).Nodup ∧
          ∀ x, x ∈ (setEntries k v l).map Prod.fst → x = k ∨ x ∈ l.map Prod.fst := by
      intro l
      induction l with
      | nil => intro _; simp [setEntries]
      | cons p l ih =>
        intro h
        obtain ⟨k', v'⟩ := p
        rw [List.map_cons, List.nodup_cons] at h
        obtain ⟨ih1, ih2⟩ := ih h.2
        by_cases hk : k' = k
        · subst hk
          refine ⟨?_, ?_⟩
          · simpa [setEntries] using h
          · intro x hx
            simp only [setEntries, if_true, List.map_cons, List.mem_cons] at hx
            rcases hx with hx | hx
            · exact Or.inl hx
            · exact Or.inr (by simp [hx])
        · refine ⟨?_, ?_⟩
          · simp only [setEntries, if_neg hk, List.map_cons, List.nodup_cons]
            refine ⟨fun hmem => ?_, ih1⟩
            rcases ih2 k' hmem with h1 | h1
            · exact hk h1
            · exact h.1 h1
          · intro x hx
            simp only [setEntries, if_neg hk, List.map_cons, List.mem_cons] at hx
            rcases hx with hx | hx
            · exact Or.inr (by simp [hx])
            · rcases ih2 x hx with h1 | h1
              · exact Or.inl h1
              · exact Or.inr (by simp [h1])
    exact (key m.entries m.nodupKeys).1⟩

/-- Map removal `delete(m, k)`. -/
def delete (m : LeaseKeysMapping) (k : Int) : LeaseKeysMapping :=
  ⟨deleteEntries k m.entries,
    m.nodupKeys.sublist ((List.filter_sublist m.entries).map Prod.fst)⟩

/-- The keys in enumeration order (`func (m LeaseKeysMapping) keys() []int64`):
the `range` loop appends every key of the map once. -/
def keys (m : LeaseKeysMapping) : List Int :=
  m.entries.foldl (fun keys p => keys ++ [p.1]) []

end LeaseKeysMapping

/-! ## Library routines used by `main.go` -/

/-- Insertion step of `sortSlice`: `a` goes in front of the first element that is
not `less` than it. -/
def orderedInsert (less : Int → Int → Bool) (a : Int) : List Int → List Int
  | [] => [a]
  | b :: l => if less b a then b :: orderedInsert less a l else a :: b :: l

/-- Go's `sort.Slice(keys, less)`, which reorders the slice so that it is ordered by
`less`; embedded as an insertion sort. -/
def sortSlice (less : Int → Int → Bool) : List Int → List Int
  | [] => []
  | a :: l => orderedInsert less a (sortSlice less l)

/-- The digit loop of Go's integer formatting: while `u ≥ base` the digit
`u % base` is written in front and `u` is divided by `base`; the last digit is `u`
itself.  Digits above 9 are the lowercase letters.  `fuel` bounds the number of
digits (64 for an unsigned 64-bit value in any base from 2 on). -/
def fmtDigits (base : Nat) : Nat → Nat → List Char → List Char
  | 0, _, acc => acc
  | fuel + 1, u, acc =>
    if base ≤ u then fmtDigits base fuel (u / base) (Nat.digitChar (u % base) :: acc)
    else Nat.digitChar u :: acc

/-- The magnitude Go's formatting routines print for a signed 64-bit value: the
value itself, or for a negative one its negation as an unsigned 64-bit number. -/
def magnitude64 (v : Int) : Nat :=
  if v < 0 then ((-v) % 2 ^ 64).toNat else v.toNat

/-- Go's `fmt.Sprintf("%016x", v)` for an `int64`: the base-16 digits of the
magnitude, zero-padded on the left to the width 16 less the room a minus sign
takes, the minus sign of a negative value in front, and blanks on the left should
the result still be shorter than 16. -/
def sprintf016x (v : Int) : String :=
  let negative := decide (v < 0)
  let digits := fmtDigits 16 64 (magnitude64 v) []
  let prec := if negative then 15 else 16
  let padded := List.replicate (prec - digits.length) '0' ++ digits
  let signed := if negative then '-' :: padded else padded
  String.mk (List.replicate (16 - signed.length) ' ' ++ signed)

/-- Go's `strconv.FormatInt(i, base)`: the digits of the magnitude, after a minus
sign when `i` is negative. -/
def FormatInt (i : Int) (base : Nat) : String :=
  let digits := fmtDigits base 64 (magnitude64 i) []
  String.mk (if i < 0 then '-' :: digits else digits)

/-- Go's `strings.Join(elems, sep)`: empty for no element, the element itself for
one, otherwise the first element followed by `sep` and the next element, in turn. -/
def Join (elems : List String) (sep : String) : String :=
  match elems with
  | [] => ""
  | [a] => a
  | a :: rest => rest.foldl (fun b s => b ++ sep ++ s) a

/-! ## Rendering of a record -/

/-- The id column (`func (l LeaseInfo) HexID() string`). -/
def LeaseInfo.HexID (l : LeaseInfo) : String :=
  sprintf016x l.ID

/-- The table row of a record (`func (l LeaseInfo) generateTableRow() []string`). -/
def LeaseInfo.generateTableRow (l : LeaseInfo) : List String :=
  [l.HexID,
   FormatInt l.GrantedTTL 10,
   FormatInt l.TTL 10,
   Join l.AttachedKeys ", ",
   Join l.PrevAttachedKeys ", "]

/-- The sorted keys (`func (m LeaseKeysMapping) keysSortedByLeaseID() []int64`):
`keys()` sorted with `less(i, j) = keys[i] < keys[j]`. -/
def LeaseKeysMapping.keysSortedByLeaseID (m : LeaseKeysMapping) : List Int :=
  sortSlice (fun a b => decide (a < b)) m.keys

/-! ## One polling cycle -/

/-- What the store reports for one lease in one cycle: its id from
`client.Leases` and the answer of `client.TimeToLive` with attached keys. -/
structure LeaseTimeToLiveResponse where
  ID : Int
  TTL : Int
  GrantedTTL : Int
  Keys : List String
  deriving DecidableEq, Repr

/-- The data of one cycle: the leases of `leaseResp.Leases`, in response order,
each with its `TimeToLive` answer. -/
abbrev Snapshot := List LeaseTimeToLiveResponse

/-- Lines 122-135: every key of the map that no lease of the response carries is
deleted. -/
def prune (m : LeaseKeysMapping) (leases : Snapshot) : LeaseKeysMapping :=
  m.keys.foldl
    (fun acc leaseKey =>
      let deleteKey := !(leases.any (fun lease => decide (leaseKey = lease.ID)))
      if deleteKey then acc.delete leaseKey else acc)
    m

/-- Lines 138-145: a lease without a record gets one with its id, empty key lists
and zero TTL (`GrantedTTL` keeps the zero value of the struct). -/
def admitLease (m : LeaseKeysMapping) (leaseID : Int) : LeaseKeysMapping :=
  match m.get leaseID with
  | some _ => m
  | none =>
    m.set leaseID
      { ID := leaseID, AttachedKeys := [], PrevAttachedKeys := [], GrantedTTL := 0, TTL := 0 }

/-- Lines 156-169: every key of `attached` that equals no key of the response is
appended to `prev`. -/
def detachedKeys (attached : List String) (respKeys : List String) (prev : List String) :
    List String :=
  attached.foldl
    (fun prev keyName =>
      let attachedKey := respKeys.any (fun keyBytes => decide (keyName = keyBytes))
      if !attachedKey then prev ++ [keyName] else prev)
    prev

/-- Lines 155-172: the record of the lease gets the detached keys appended to
`PrevAttachedKeys` and its `AttachedKeys` emptied. -/
def detach (m : LeaseKeysMapping) (leaseID : Int) (respKeys : List String) : LeaseKeysMapping :=
  match m.get leaseID with
  | some leaseInfo =>
    m.set leaseID
      { leaseInfo with
        PrevAttachedKeys :=
          detachedKeys leaseInfo.AttachedKeys respKeys leaseInfo.PrevAttachedKeys
        AttachedKeys := [] }
  | none => m

/-- Lines 175-184: for every key of the response the record of the lease gets both
TTL fields of the response and the key appended to `AttachedKeys`. -/
def attach (m : LeaseKeysMapping) (leaseID : Int) (ttlResp : LeaseTimeToLiveResponse) :
    LeaseKeysMapping :=
  ttlResp.Keys.foldl
    (fun acc key =>
      match acc.get leaseID with
      | some leaseInfo =>
        acc.set leaseID
          { leaseInfo with
            GrantedTTL := ttlResp.GrantedTTL
            TTL := ttlResp.TTL
            AttachedKeys := leaseInfo.AttachedKeys ++ [key] }
      | none => acc)
    m

/-- Lines 137-185, the body of the loop over `leaseResp.Leases` for one lease. -/
def processLease (m : LeaseKeysMapping) (ttlResp : LeaseTimeToLiveResponse) : LeaseKeysMapping :=
  attach (detach (admitLease m ttlResp.ID) ttlResp.ID ttlResp.Keys) ttlResp.ID ttlResp

/-- Lines 120-185: the state after one cycle, from the state before it and the
answers of the store. -/
def reconcile (m : LeaseKeysMapping) (leases : Snapshot) : LeaseKeysMapping :=
  leases.foldl processLease (prune m leases)

/-- Lines 193-197: the rows appended to the table, one for every sorted key that
has a record. -/
def tableRows (m : LeaseKeysMapping) : List (List String) :=
  m.keysSortedByLeaseID.filterMap (fun lid => (m.get lid).map LeaseInfo.generateTableRow)

/-- The record a lease has after a cycle, from the record it had before (if any)
and the answer of the store.  This is no function of `main.go` but the closed form of
`processLease` on one record, used in the proofs only (`processLease_eq` proves that
`processLease` writes exactly this record). -/
def updateRecord (old : Option LeaseInfo) (ttlResp : LeaseTimeToLiveResponse) : LeaseInfo :=
  let base : LeaseInfo :=
    old.getD { ID := ttlResp.ID, AttachedKeys := [], PrevAttachedKeys := [], GrantedTTL := 0, TTL := 0 }
  { ID := base.ID
    AttachedKeys := ttlResp.Keys
    PrevAttachedKeys :=
      base.PrevAttachedKeys ++ base.AttachedKeys.filter (fun k => decide (k ∉ ttlResp.Keys))
    GrantedTTL := if ttlResp.Keys = [] then base.GrantedTTL else ttlResp.GrantedTTL
    TTL := if ttlResp.Keys = [] then base.TTL else ttlResp.TTL }

/-! ## Reading digit strings back -/

/-- Whether `c` is one of `0`-`9`, `a`-`f`. -/
def isLowerHexDigit (c : Char) : Bool :=
  (48 ≤ c.toNat && c.toNat ≤ 57) || (97 ≤ c.toNat && c.toNat ≤ 102)

/-- Whether `c` is one of `0`-`9`. -/
def isDecimalDigit (c : Char) : Bool :=
  48 ≤ c.toNat && c.toNat ≤ 57

/-- The value of a digit character: 0 to 9 for `0`-`9`, 10 to 15 for `a`-`f`. -/
def digitValue (c : Char) : Nat :=
  if c.toNat ≤ 57 then c.toNat - 48 else c.toNat - 97 + 10

/-- The number a digit string denotes in base `base`, most significant digit first. -/
def parseDigits (base : Nat) (ds : List Char) : Nat :=
  ds.foldl (fun acc c => base * acc + digitValue c) 0

/-- The integer a decimal string with an optional leading minus sign denotes. -/
def parseDecimal (s : String) : Int :=
  if s.data.head? = some '-' then -(parseDigits 10 s.data.tail : Int)
  else (parseDigits 10 s.data : Int)

/-! ## Example data -/

/-- A state with one lease, id 10, to which the keys `a` and `b` are attached. -/
def exampleState : LeaseKeysMapping :=
  ⟨[(10, { ID := 10, AttachedKeys := ["a", "b"], PrevAttachedKeys := [], GrantedTTL := 60,
           TTL := 60 })], by decide⟩

/-- A cycle in which lease 10 has the key `a` only. -/
def exampleLease : LeaseTimeToLiveResponse :=
  { ID := 10, TTL := 55, GrantedTTL := 60, Keys := ["a"] }

/-- A cycle in which lease 10 has no key at all, and other TTL values than before. -/
def exampleBareLease : LeaseTimeToLiveResponse :=
  { ID := 10, TTL := 55, GrantedTTL := 70, Keys := [] }

/-- A second lease, id 3, with one key. -/
def exampleOtherLease : LeaseTimeToLiveResponse :=
  { ID := 3, TTL := 7, GrantedTTL := 9, Keys := ["c"] }

/-- A record with id 255, two attached keys, one detached key and a negative TTL. -/
def exampleRecord : LeaseInfo :=
  { ID := 255, AttachedKeys := ["a", "b"], PrevAttachedKeys := ["c"], GrantedTTL := 60, TTL := -1 }

/-- A record whose id is the 64-bit value -1. -/
def exampleNegativeId : LeaseInfo :=
  { ID := -1, AttachedKeys := [], PrevAttachedKeys := [], GrantedTTL := 0, TTL := 0 }

/-- A record whose id is the least 64-bit value. -/
def exampleLeastId : LeaseInfo :=
  { ID := -2 ^ 63, AttachedKeys := [], PrevAttachedKeys := [], GrantedTTL := 0, TTL := 0 }

/-! ## The map operations -/

theorem getEntries_setEntries (x k : Int) (v : LeaseInfo) (l : List (Int × LeaseInfo)) :
    getEntries x (setEntries k v l) = if x = k then some v else getEntries x l := by
  induction l with
  | nil =>
    by_cases h : x = k
    · simp [setEntries, getEntries, h]
    · simp [setEntries, getEntries, h, Ne.symm h]
  | cons p l ih =>
    obtain ⟨k', v'⟩ := p
    by_cases hk : k' = k
    · by_cases h : x = k
      · simp [setEntries, getEntries, hk, h]
      · simp [setEntries, getEntries, hk, h, Ne.symm h]
    · by_cases h : x = k
      · subst h
        simp [setEntries, getEntries, hk, ih]
      · simp [setEntries, getEntries, hk, ih, h]

theorem getEntries_deleteEntries (x k : Int) (l : List (Int × LeaseInfo)) :
    getEntries x (deleteEntries k l) = if x = k then none else getEntries x l := by
  induction l with
  | nil => simp [deleteEntries, getEntries]
  | cons p l ih =>
    obtain ⟨k', v'⟩ := p
    simp only [deleteEntries] at ih ⊢
    by_cases hk : k' = k <;> by_cases h : x = k
    · subst hk; subst h
      simpa [getEntries, List.filter_cons] using ih
    · subst hk
      have hx : ¬ k' = x := fun e => h e.symm
      simpa [getEntries, List.filter_cons, h, hx] using ih
    · subst h
      simpa [getEntries, List.filter_cons, hk] using ih
    · simp only [if_neg h, ne_eq, decide_not] at ih
      simp [getEntries, List.filter_cons, hk, h, ih]

theorem setEntries_setEntries (k : Int) (v w : LeaseInfo) (l : List (Int × LeaseInfo)) :
    setEntries k w (setEntries k v l) = setEntries k w l := by
  induction l with
  | nil => simp [setEntries]
  | cons p l ih =>
    obtain ⟨k', v'⟩ := p
    by_cases hk : k' = k
    · simp [setEntries, hk]
    · simp [setEntries, hk, ih]

theorem setEntries_of_getEntries (k : Int) (v : LeaseInfo) (l : List (Int × LeaseInfo))
    (h : getEntries k l = some v) : setEntries k v l = l := by
  induction l with
  | nil => simp [getEntries] at h
  | cons p l ih =>
    obtain ⟨k', v'⟩ := p
    by_cases hk : k' = k
    · subst hk
      simp only [getEntries, if_true, Option.some.injEq] at h
      simp [setEntries, h]
    · simp only [getEntries, if_neg hk] at h
      simp [setEntries, hk, ih h]

theorem mem_keys_iff_getEntries (x : Int) (l : List (Int × LeaseInfo)) :
    x ∈ l.map Prod.fst ↔ (getEntries x l).isSome = true := by
  induction l with
  | nil => simp [getEntries]
  | cons p l ih =>
    obtain ⟨k', v'⟩ := p
    by_cases hk : k' = x
    · simp [getEntries, hk]
    · simp only [List.map_cons, List.mem_cons, getEntries, if_neg hk, ← ih]
      constructor
      · rintro (h | h)
        · exact absurd h.symm hk
        · exact h
      · exact Or.inr

theorem foldl_append_singleton (l : List (Int × LeaseInfo)) (acc : List Int) :
    l.foldl (fun keys p => keys ++ [p.1]) acc = acc ++ l.map Prod.fst := by
  induction l generalizing acc with
  | nil => simp
  | cons p l ih => simp [ih]

namespace LeaseKeysMapping

theorem ext_entries {m m' : LeaseKeysMapping} (h : m.entries = m'.entries) : m = m' := by
  cases m; cases m'; cases h; rfl

theorem keys_eq (m : LeaseKeysMapping) : m.keys = m.entries.map Prod.fst := by
  simp [keys, foldl_append_singleton]

theorem keys_nodup (m : LeaseKeysMapping) : m.keys.Nodup := by
  rw [keys_eq]; exact m.nodupKeys

theorem mem_keys (m : LeaseKeysMapping) (x : Int) : x ∈ m.keys ↔ (m.get x).isSome = true := by
  rw [keys_eq]; exact mem_keys_iff_getEntries x m.entries

theorem get_empty (x : Int) : empty.get x = none := rfl

theorem get_set (m : LeaseKeysMapping) (k x : Int) (v : LeaseInfo) :
    (m.set k v).get x = if x = k then some v else m.get x :=
  getEntries_setEntries x k v m.entries

theorem get_delete (m : LeaseKeysMapping) (k x : Int) :
    (m.delete k).get x = if x = k then none else m.get x :=
  getEntries_deleteEntries x k m.entries

theorem set_set (m : LeaseKeysMapping) (k : Int) (v w : LeaseInfo) :
    (m.set k v).set k w = m.set k w :=
  ext_entries (setEntries_setEntries k v w m.entries)

theorem set_of_get (m : LeaseKeysMapping) (k : Int) (v : LeaseInfo) (h : m.get k = some v) :
    m.set k v = m :=
  ext_entries (setEntries_of_getEntries k v m.entries h)

end LeaseKeysMapping

/-! ## Closed forms of the steps of a cycle -/

theorem any_eq_iff_mem (keyName : String) (respKeys : List String) :
    respKeys.any (fun keyBytes => decide (keyName = keyBytes)) = decide (keyName ∈ respKeys) := by
  induction respKeys with
  | nil => simp
  | cons a l ih => simp [List.any_cons, ih]

theorem detachedKeys_eq (attached respKeys prev : List String) :
    detachedKeys attached respKeys prev
      = prev ++ attached.filter (fun k => decide (k ∉ respKeys)) := by
  unfold detachedKeys
  induction attached generalizing prev with
  | nil => simp
  | cons a l ih =>
    rw [List.foldl_cons, ih]
    by_cases h : a ∈ respKeys
    · simp [any_eq_iff_mem, h, List.filter_cons]
    · simp [any_eq_iff_mem, h, List.filter_cons]

theorem attach_of_get (leaseID : Int) (ttlResp : LeaseTimeToLiveResponse)
    (m : LeaseKeysMapping) (leaseInfo : LeaseInfo) (h : m.get leaseID = some leaseInfo) :
    attach m leaseID ttlResp =
      if ttlResp.Keys = [] then m
      else m.set leaseID
        { leaseInfo with
          GrantedTTL := ttlResp.GrantedTTL
          TTL := ttlResp.TTL
          AttachedKeys := leaseInfo.AttachedKeys ++ ttlResp.Keys } := by
  unfold attach
  generalize ttlResp.Keys = keys
  induction keys generalizing m leaseInfo with
  | nil => simp
  | cons key keys ih =>
    rw [List.foldl_cons]
    simp only [h]
    rw [ih _ _ (by rw [LeaseKeysMapping.get_set, if_pos rfl])]
    by_cases hk : keys = []
    · simp [hk]
    · simp [hk, LeaseKeysMapping.set_set]

theorem processLease_eq (m : LeaseKeysMapping) (ttlResp : LeaseTimeToLiveResponse) :
    processLease m ttlResp = m.set ttlResp.ID (updateRecord (m.get ttlResp.ID) ttlResp) := by
  unfold processLease
  cases hget : m.get ttlResp.ID with
  | none =>
    have h1 : admitLease m ttlResp.ID = m.set ttlResp.ID
        { ID := ttlResp.ID, AttachedKeys := [], PrevAttachedKeys := [], GrantedTTL := 0,
          TTL := 0 } := by
      simp [admitLease, hget]
    rw [h1]
    simp only [detach, LeaseKeysMapping.get_set, if_true, LeaseKeysMapping.set_set]
    rw [attach_of_get _ _ _ _ (by rw [LeaseKeysMapping.get_set, if_pos rfl])]
    by_cases hk : ttlResp.Keys = []
    · simp [hk, updateRecord, detachedKeys_eq]
    · simp [hk, updateRecord, detachedKeys_eq, LeaseKeysMapping.set_set]
  | some leaseInfo =>
    have h1 : admitLease m ttlResp.ID = m := by simp [admitLease, hget]
    rw [h1]
    simp only [detach, hget]
    rw [attach_of_get _ _ _ _ (by rw [LeaseKeysMapping.get_set, if_pos rfl])]
    by_cases hk : ttlResp.Keys = []
    · simp [hk, updateRecord, detachedKeys_eq]
    · simp [hk, updateRecord, detachedKeys_eq, LeaseKeysMapping.set_set]

theorem get_processLease (m : LeaseKeysMapping) (ttlResp : LeaseTimeToLiveResponse) (x : Int) :
    (processLease m ttlResp).get x =
      if x = ttlResp.ID then some (updateRecord (m.get x) ttlResp) else m.get x := by
  rw [processLease_eq, LeaseKeysMapping.get_set]
  by_cases h : x = ttlResp.ID
  · subst h; simp
  · simp [h]

theorem get_foldl_delete (cond : Int → Bool) (ks : List Int) (m : LeaseKeysMapping) (x : Int) :
    (ks.foldl (fun acc leaseKey => if cond leaseKey then acc.delete leaseKey else acc) m).get x
      = if x ∈ ks ∧ cond x = true then none else m.get x := by
  induction ks generalizing m with
  | nil => simp
  | cons k ks ih =>
    rw [List.foldl_cons, ih]
    by_cases hx : x ∈ ks ∧ cond x = true
    · have : x ∈ k :: ks ∧ cond x = true := ⟨List.mem_cons_of_mem _ hx.1, hx.2⟩
      simp [hx, this]
    · rw [if_neg hx]
      by_cases hc : cond k = true
      · rw [if_pos hc, LeaseKeysMapping.get_delete]
        by_cases hxk : x = k
        · subst hxk
          simp [hc]
        · have : ¬ (x ∈ k :: ks ∧ cond x = true) := by
            rintro ⟨h1, h2⟩
            rcases List.mem_cons.1 h1 with h1 | h1
            · exact hxk h1
            · exact hx ⟨h1, h2⟩
          rw [if_neg hxk, if_neg this]
      · rw [if_neg hc]
        have : ¬ (x ∈ k :: ks ∧ cond x = true) := by
          rintro ⟨h1, h2⟩
          rcases List.mem_cons.1 h1 with h1 | h1
          · subst h1; exact hc h2
          · exact hx ⟨h1, h2⟩
        rw [if_neg this]

theorem get_prune (m : LeaseKeysMapping) (leases : Snapshot) (x : Int) :
    (prune m leases).get x
      = if x ∈ leases.map LeaseTimeToLiveResponse.ID then m.get x else none := by
  unfold prune
  simp only []
  rw [get_foldl_delete (fun leaseKey =>
    !(leases.any (fun lease => decide (leaseKey = lease.ID)))) m.keys m x]
  by_cases hx : x ∈ leases.map LeaseTimeToLiveResponse.ID
  · have : leases.any (fun lease => decide (x = lease.ID)) = true := by
      rw [List.any_eq_true]
      obtain ⟨e, he, hxe⟩ := List.mem_map.1 hx
      exact ⟨e, he, by simp [hxe]⟩
    simp [hx, this]
  · have : leases.any (fun lease => decide (x = lease.ID)) = false := by
      rw [← Bool.not_eq_true, List.any_eq_true]
      rintro ⟨e, he, hxe⟩
      exact hx (List.mem_map.2 ⟨e, he, by simpa using (of_decide_eq_true hxe).symm⟩)
    rw [if_neg hx]
    by_cases hk : x ∈ m.keys
    · simp [hk, this]
    · have hn : m.get x = none := by
        rw [LeaseKeysMapping.mem_keys] at hk
        simpa using hk
      simp [hn]

/-! ## The state after a cycle, record by record -/

theorem get_foldl_processLease_of_not_mem (leases : Snapshot) (m : LeaseKeysMapping) (x : Int)
    (hx : x ∉ leases.map LeaseTimeToLiveResponse.ID) :
    (leases.foldl processLease m).get x = m.get x := by
  induction leases generalizing m with
  | nil => rfl
  | cons a l ih =>
    rw [List.map_cons, List.mem_cons, not_or] at hx
    rw [List.foldl_cons, ih _ hx.2, get_processLease, if_neg hx.1]

theorem get_foldl_processLease_of_mem (leases : Snapshot) (m : LeaseKeysMapping)
    (hun : (leases.map LeaseTimeToLiveResponse.ID).Nodup)
    (e : LeaseTimeToLiveResponse) (he : e ∈ leases) :
    (leases.foldl processLease m).get e.ID = some (updateRecord (m.get e.ID) e) := by
  induction leases generalizing m with
  | nil => simp at he
  | cons a l ih =>
    rw [List.map_cons, List.nodup_cons] at hun
    rw [List.foldl_cons]
    rcases List.mem_cons.1 he with h | h
    · subst h
      rw [get_foldl_processLease_of_not_mem _ _ _ hun.1, get_processLease, if_pos rfl]
    · have hne : e.ID ≠ a.ID := fun hEq => hun.1 (hEq ▸ List.mem_map_of_mem _ h)
      rw [ih _ hun.2 h, get_processLease, if_neg hne]

theorem isSome_get_foldl_processLease (leases : Snapshot) (m : LeaseKeysMapping) (x : Int) :
    ((leases.foldl processLease m).get x).isSome = true ↔
      x ∈ leases.map LeaseTimeToLiveResponse.ID ∨ (m.get x).isSome = true := by
  induction leases generalizing m with
  | nil => simp
  | cons a l ih =>
    rw [List.foldl_cons, ih, get_processLease, List.map_cons, List.mem_cons]
    by_cases h : x = a.ID
    · simp [h]
    · simp [h, or_comm]

theorem get_reconcile_of_mem (m : LeaseKeysMapping) (leases : Snapshot)
    (hun : (leases.map LeaseTimeToLiveResponse.ID).Nodup)
    (e : LeaseTimeToLiveResponse) (he : e ∈ leases) :
    (reconcile m leases).get e.ID = some (updateRecord (m.get e.ID) e) := by
  unfold reconcile
  rw [get_foldl_processLease_of_mem _ _ hun e he, get_prune,
    if_pos (List.mem_map_of_mem _ he)]

theorem get_reconcile_of_not_mem (m : LeaseKeysMapping) (leases : Snapshot) (x : Int)
    (hx : x ∉ leases.map LeaseTimeToLiveResponse.ID) :
    (reconcile m leases).get x = none := by
  unfold reconcile
  rw [get_foldl_processLease_of_not_mem _ _ _ hx, get_prune, if_neg hx]

theorem mem_keys_reconcile (m : LeaseKeysMapping) (leases : Snapshot) (x : Int) :
    x ∈ (reconcile m leases).keys ↔ x ∈ leases.map LeaseTimeToLiveResponse.ID := by
  rw [LeaseKeysMapping.mem_keys]
  unfold reconcile
  rw [isSome_get_foldl_processLease, get_prune]
  constructor
  · rintro (h | h)
    · exact h
    · by_cases hx : x ∈ leases.map LeaseTimeToLiveResponse.ID
      · exact hx
      · simp [hx] at h
  · exact Or.inl

theorem updateRecord_idem (old : Option LeaseInfo) (e : LeaseTimeToLiveResponse) :
    updateRecord (some (updateRecord old e)) e = updateRecord old e := by
  by_cases hk : e.Keys = []
  · simp [updateRecord, hk]
  · simp [updateRecord, hk]

theorem foldl_processLease_fixed (m : LeaseKeysMapping) (l : Snapshot)
    (h : ∀ e ∈ l, m.get e.ID = some (updateRecord (m.get e.ID) e)) :
    l.foldl processLease m = m := by
  induction l with
  | nil => rfl
  | cons a l ih =>
    have ha : processLease m a = m := by
      rw [processLease_eq]
      exact LeaseKeysMapping.set_of_get _ _ _ (h a (List.mem_cons_self _ _))
    rw [List.foldl_cons, ha]
    exact ih (fun e he => h e (List.mem_cons_of_mem _ he))

theorem prune_fixed (m : LeaseKeysMapping) (leases : Snapshot)
    (h : ∀ x ∈ m.keys, x ∈ leases.map LeaseTimeToLiveResponse.ID) :
    prune m leases = m := by
  unfold prune
  generalize m.keys = ks at h
  induction ks with
  | nil => rfl
  | cons k ks ih =>
    have hk : leases.any (fun lease => decide (k = lease.ID)) = true := by
      rw [List.any_eq_true]
      obtain ⟨e, he, hxe⟩ := List.mem_map.1 (h k (List.mem_cons_self _ _))
      exact ⟨e, he, by simp [hxe]⟩
    rw [List.foldl_cons]
    simp only [hk, Bool.not_true, Bool.false_eq_true, if_false]
    exact ih (fun x hx => h x (List.mem_cons_of_mem _ hx))

/-! ## Sorting and the projection to rows -/

theorem orderedInsert_perm (less : Int → Int → Bool) (a : Int) (l : List Int) :
    (orderedInsert less a l).Perm (a :: l) := by
  induction l with
  | nil => exact List.Perm.refl _
  | cons b l ih =>
    by_cases h : less b a = true
    · simp only [orderedInsert, h, if_true]
      exact ((List.Perm.cons b ih).trans (List.Perm.swap a b l))
    · simp only [orderedInsert, h]
      exact List.Perm.refl _

theorem sortSlice_perm (less : Int → Int → Bool) (l : List Int) :
    (sortSlice less l).Perm l := by
  induction l with
  | nil => exact List.Perm.refl _
  | cons a l ih =>
    exact (orderedInsert_perm less a (sortSlice less l)).trans (List.Perm.cons a ih)

theorem orderedInsert_sorted (a : Int) (l : List Int) (h : l.Sorted (fun x y => x ≤ y)) :
    (orderedInsert (fun x y => decide (x < y)) a l).Sorted (fun x y => x ≤ y) := by
  induction l with
  | nil => simp [orderedInsert]
  | cons b l ih =>
    have hb := List.pairwise_cons.1 h
    by_cases hlt : b < a
    · simp only [orderedInsert, hlt, decide_True, if_true]
      refine List.pairwise_cons.2 ⟨fun x hx => ?_, ih hb.2⟩
      rcases List.mem_cons.1 ((orderedInsert_perm _ a l).mem_iff.1 hx) with hxa | hxl
      · rw [hxa]; exact le_of_lt hlt
      · exact hb.1 x hxl
    · simp only [orderedInsert, hlt, decide_False, Bool.false_eq_true, if_false]
      refine List.pairwise_cons.2 ⟨fun x hx => ?_, h⟩
      rcases List.mem_cons.1 hx with hxb | hxl
      · rw [hxb]; exact not_lt.1 hlt
      · exact le_trans (not_lt.1 hlt) (hb.1 x hxl)

theorem sortSlice_sorted (l : List Int) :
    (sortSlice (fun x y => decide (x < y)) l).Sorted (fun x y => x ≤ y) := by
  induction l with
  | nil => simp [sortSlice]
  | cons a l ih => exact orderedInsert_sorted a _ ih

theorem sortSlice_eq_of_perm (l l' : List Int) (h : l.Perm l') :
    sortSlice (fun x y => decide (x < y)) l = sortSlice (fun x y => decide (x < y)) l' :=
  List.eq_of_perm_of_sorted
    (((sortSlice_perm _ l).trans h).trans (sortSlice_perm _ l').symm)
    (sortSlice_sorted l) (sortSlice_sorted l')

theorem mem_iff_getEntries (l : List (Int × LeaseInfo)) (hl : (l.map Prod.fst).Nodup)
    (k : Int) (v : LeaseInfo) : (k, v) ∈ l ↔ getEntries k l = some v := by
  induction l with
  | nil => simp [getEntries]
  | cons p l ih =>
    obtain ⟨k', v'⟩ := p
    rw [List.map_cons, List.nodup_cons] at hl
    by_cases hk : k' = k
    · subst hk
      simp only [getEntries, if_true, List.mem_cons, Prod.mk.injEq, true_and, Option.some.injEq]
      constructor
      · rintro (h | h)
        · exact h.symm
        · exact absurd (List.mem_map_of_mem Prod.fst h) hl.1
      · intro h; exact Or.inl h.symm
    · simp only [getEntries, if_neg hk, List.mem_cons, Prod.mk.injEq, ← ih hl.2]
      constructor
      · rintro (h | h)
        · exact absurd h.1.symm hk
        · exact h
      · exact Or.inr

namespace LeaseKeysMapping

theorem mem_entries (m : LeaseKeysMapping) (k : Int) (v : LeaseInfo) :
    (k, v) ∈ m.entries ↔ m.get k = some v :=
  mem_iff_getEntries m.entries m.nodupKeys k v

theorem get_eq_of_perm (m m' : LeaseKeysMapping) (h : m'.entries.Perm m.entries) (x : Int) :
    m'.get x = m.get x := by
  cases hg : m.get x with
  | none =>
    cases hg' : m'.get x with
    | none => rfl
    | some v =>
      have := (m.mem_entries x v).1 (h.mem_iff.1 ((m'.mem_entries x v).2 hg'))
      rw [hg] at this; exact absurd this (by simp)
  | some v => exact (m'.mem_entries x v).1 (h.mem_iff.2 ((m.mem_entries x v).2 hg))

theorem perm_of_get_eq (m m' : LeaseKeysMapping) (h : ∀ x, m'.get x = m.get x) :
    m'.entries.Perm m.entries := by
  refine (List.perm_ext_iff_of_nodup (List.Nodup.of_map _ m'.nodupKeys)
    (List.Nodup.of_map _ m.nodupKeys)).2 ?_
  rintro ⟨k, v⟩
  rw [mem_entries, mem_entries, h]

theorem keysSorted_eq_of_get_eq (m m' : LeaseKeysMapping) (h : ∀ x, m'.get x = m.get x) :
    m'.keysSortedByLeaseID = m.keysSortedByLeaseID := by
  unfold keysSortedByLeaseID
  apply sortSlice_eq_of_perm
  rw [keys_eq, keys_eq]
  exact (perm_of_get_eq m m' h).map _

theorem keysSorted_perm (m : LeaseKeysMapping) : m.keysSortedByLeaseID.Perm m.keys :=
  sortSlice_perm _ _

theorem keysSorted_nodup (m : LeaseKeysMapping) : m.keysSortedByLeaseID.Nodup :=
  (keysSorted_perm m).nodup_iff.2 m.keys_nodup

theorem keysSorted_strict (m : LeaseKeysMapping) :
    m.keysSortedByLeaseID.Sorted (fun x y => x < y) :=
  (sortSlice_sorted m.keys).lt_of_le (keysSorted_nodup m)

end LeaseKeysMapping

theorem tableRows_eq_of_get_eq (m m' : LeaseKeysMapping) (h : ∀ x, m'.get x = m.get x) :
    tableRows m' = tableRows m := by
  unfold tableRows
  rw [LeaseKeysMapping.keysSorted_eq_of_get_eq m m' h]
  congr 1
  funext lid
  rw [h]

theorem forall₂_filterMap {α β : Type} (f : α → Option β) (l : List α)
    (h : ∀ a ∈ l, (f a).isSome = true) :
    List.Forall₂ (fun a b => f a = some b) l (l.filterMap f) := by
  induction l with
  | nil => exact List.Forall₂.nil
  | cons a l ih =>
    obtain ⟨b, hb⟩ := Option.isSome_iff_exists.1 (h a (List.mem_cons_self _ _))
    rw [List.filterMap_cons_some hb]
    exact List.Forall₂.cons hb (ih (fun x hx => h x (List.mem_cons_of_mem _ hx)))

/-! ## The claims about the reconcile cycle -/

/-- C1 (presence): after one cycle from any state with any answers of the store, the
keys of the map are exactly the ids of the leases the store listed (whether or not
an id is listed twice); with no lease listed the map is empty. -/
theorem C1_presence (m : LeaseKeysMapping) (leases : Snapshot) :
    (∀ x, x ∈ (reconcile m leases).keys ↔ x ∈ leases.map LeaseTimeToLiveResponse.ID) ∧
      (∀ x, ((reconcile m leases).get x).isSome = true ↔
        x ∈ leases.map LeaseTimeToLiveResponse.ID) ∧
      reconcile m [] = LeaseKeysMapping.empty := by
  refine ⟨mem_keys_reconcile m leases, fun x => ?_, ?_⟩
  · rw [← LeaseKeysMapping.mem_keys]; exact mem_keys_reconcile m leases x
  · apply LeaseKeysMapping.ext_entries
    have h : (reconcile m []).keys = [] :=
      List.eq_nil_iff_forall_not_mem.2 (fun x hx => by
        simpa using (mem_keys_reconcile m [] x).1 hx)
    rw [LeaseKeysMapping.keys_eq] at h
    simpa [LeaseKeysMapping.empty] using h

/-- C2 (attachment fidelity): with unique ids in the snapshot, the record of every
listed lease has, after the cycle, exactly the key list the store reported for it,
in the same order, whatever the state held before. -/
theorem C2_attachment_fidelity (m : LeaseKeysMapping) (leases : Snapshot)
    (hun : (leases.map LeaseTimeToLiveResponse.ID).Nodup)
    (e : LeaseTimeToLiveResponse) (he : e ∈ leases) :
    ∃ r, (reconcile m leases).get e.ID = some r ∧ r.AttachedKeys = e.Keys :=
  ⟨_, get_reconcile_of_mem m leases hun e he, rfl⟩

/-- Witness of C2: lease 10 held `a`, `b` and is reported with `a` only, next to a
lease without keys. -/
theorem C2_attachment_fidelity_witness :
    (∃ r, (reconcile exampleState [exampleLease, exampleOtherLease]).get 10 = some r ∧
        r.AttachedKeys = ["a"]) ∧
      (∃ r, (reconcile exampleState [exampleBareLease]).get 10 = some r ∧
        r.AttachedKeys = []) :=
  ⟨C2_attachment_fidelity exampleState [exampleLease, exampleOtherLease] (by decide)
      exampleLease (by decide),
    C2_attachment_fidelity exampleState [exampleBareLease] (by decide)
      exampleBareLease (by decide)⟩

/-- C3 (history monotonicity): with unique ids in the snapshot, a lease that had a
record before the cycle and is listed in it has afterwards as `PrevAttachedKeys` the
old value followed by those old attached keys, in their old order, that are not
among the reported keys; the old value is an initial segment of the new one. -/
theorem C3_history_monotonicity (m : LeaseKeysMapping) (leases : Snapshot)
    (hun : (leases.map LeaseTimeToLiveResponse.ID).Nodup)
    (e : LeaseTimeToLiveResponse) (he : e ∈ leases)
    (old : LeaseInfo) (hold : m.get e.ID = some old) :
    ∃ r, (reconcile m leases).get e.ID = some r ∧
      r.PrevAttachedKeys =
        old.PrevAttachedKeys ++ old.AttachedKeys.filter (fun k => decide (k ∉ e.Keys)) ∧
      old.PrevAttachedKeys <+: r.PrevAttachedKeys := by
  refine ⟨_, get_reconcile_of_mem m leases hun e he, ?_, ?_⟩
  · rw [hold]; rfl
  · rw [hold]; exact List.prefix_append _ _

/-- Witness of C3: the state with lease 10, attached `a`, `b`, and nothing detached so
far, reconciled with lease 10 holding `a`, gives attached `a` and detached `b`. -/
theorem C3_history_monotonicity_witness :
    (reconcile exampleState [exampleLease]).get 10 =
        some { ID := 10, AttachedKeys := ["a"], PrevAttachedKeys := ["b"], GrantedTTL := 60,
               TTL := 55 } ∧
      ∃ r, (reconcile exampleState [exampleLease]).get 10 = some r ∧
        r.PrevAttachedKeys = [] ++ ["a", "b"].filter (fun k => decide (k ∉ ["a"])) ∧
        [] <+: r.PrevAttachedKeys :=
  ⟨by decide,
    C3_history_monotonicity exampleState [exampleLease] (by decide) exampleLease (by decide)
      { ID := 10, AttachedKeys := ["a", "b"], PrevAttachedKeys := [], GrantedTTL := 60,
        TTL := 60 } (by decide)⟩

/-- C4 (TTL refresh), evaluated where it fails: a lease reported with no attached key
keeps the TTL values its record had (60 and 60 against the reported 70 and 55), and a
lease first seen with no attached key gets the values 0 and 0; a lease reported with
a key gets the reported values. -/
theorem C4_ttl_not_refreshed_without_keys :
    (reconcile exampleState [exampleBareLease]).get 10 =
        some { ID := 10, AttachedKeys := [], PrevAttachedKeys := ["a", "b"], GrantedTTL := 60,
               TTL := 60 } ∧
      (reconcile LeaseKeysMapping.empty [exampleBareLease]).get 10 =
        some { ID := 10, AttachedKeys := [], PrevAttachedKeys := [], GrantedTTL := 0,
               TTL := 0 } ∧
      (reconcile LeaseKeysMapping.empty [exampleLease]).get 10 =
        some { ID := 10, AttachedKeys := ["a"], PrevAttachedKeys := [], GrantedTTL := 60,
               TTL := 55 } := by
  decide

/-- The TTL fields after a cycle, in general: the reported values when the lease is
reported with at least one key, otherwise the values of the old record, or zero when
there was none. -/
theorem ttl_after_cycle (m : LeaseKeysMapping) (leases : Snapshot)
    (hun : (leases.map LeaseTimeToLiveResponse.ID).Nodup)
    (e : LeaseTimeToLiveResponse) (he : e ∈ leases) :
    ∃ r, (reconcile m leases).get e.ID = some r ∧
      (e.Keys ≠ [] → r.GrantedTTL = e.GrantedTTL ∧ r.TTL = e.TTL) ∧
      (e.Keys = [] → ∀ old, m.get e.ID = some old →
        r.GrantedTTL = old.GrantedTTL ∧ r.TTL = old.TTL) ∧
      (e.Keys = [] → m.get e.ID = none → r.GrantedTTL = 0 ∧ r.TTL = 0) := by
  refine ⟨_, get_reconcile_of_mem m leases hun e he, ?_, ?_, ?_⟩
  · intro hk; simp [updateRecord, hk]
  · intro hk old hold; simp [updateRecord, hk, hold]
  · intro hk hnone; simp [updateRecord, hk, hnone]

/-- C5 (history loss on removal): a lease with a record that is missing from one
snapshot has no record after that cycle; when a later snapshot with unique ids lists
it again, its record has no detached keys, has the reported keys attached, and is the
record the same snapshot gives from the empty state. -/
theorem C5_history_loss_on_removal (m : LeaseKeysMapping) (x : Int) (old : LeaseInfo)
    (_hold : m.get x = some old) (s1 s2 : Snapshot)
    (h1 : x ∉ s1.map LeaseTimeToLiveResponse.ID)
    (hun : (s2.map LeaseTimeToLiveResponse.ID).Nodup)
    (e : LeaseTimeToLiveResponse) (he : e ∈ s2) (hx : e.ID = x) :
    (reconcile m s1).get x = none ∧
      ∃ r, (reconcile (reconcile m s1) s2).get x = some r ∧
        r.PrevAttachedKeys = [] ∧ r.AttachedKeys = e.Keys ∧
        (reconcile LeaseKeysMapping.empty s2).get x = some r := by
  have hnone : (reconcile m s1).get x = none := get_reconcile_of_not_mem m s1 x h1
  subst hx
  refine ⟨hnone, _, get_reconcile_of_mem _ s2 hun e he, ?_, ?_, ?_⟩
  · rw [hnone]; rfl
  · rfl
  · rw [get_reconcile_of_mem _ s2 hun e he, hnone, LeaseKeysMapping.get_empty]

/-- Witness of C5: lease 10 with attached `a`, `b` disappears for a cycle (only lease 3
is listed) and comes back with the key `a`. -/
theorem C5_history_loss_on_removal_witness :
    (reconcile exampleState [exampleOtherLease]).get 10 = none ∧
      ∃ r, (reconcile (reconcile exampleState [exampleOtherLease])
            [exampleOtherLease, exampleLease]).get 10 = some r ∧
        r.PrevAttachedKeys = [] ∧ r.AttachedKeys = ["a"] ∧
        (reconcile LeaseKeysMapping.empty [exampleOtherLease, exampleLease]).get 10 = some r :=
  C5_history_loss_on_removal exampleState 10
    { ID := 10, AttachedKeys := ["a", "b"], PrevAttachedKeys := [], GrantedTTL := 60, TTL := 60 }
    (by decide) [exampleOtherLease] [exampleOtherLease, exampleLease] (by decide) (by decide)
    exampleLease (by decide) (by decide)

/-- C6 (deterministic projection): for every map, in whatever order its keys are
enumerated, the sorted key list has no duplicates, holds exactly the keys of the map,
is strictly ascending and is the same for every enumeration order; the table rows are,
in that order, the rows of the records of these keys, one for each, and the empty
state gives no row. -/
theorem C6_deterministic_projection (m : LeaseKeysMapping) :
    m.keysSortedByLeaseID.Nodup ∧
      m.keysSortedByLeaseID.Perm m.keys ∧
      (∀ k, k ∈ m.keysSortedByLeaseID ↔ (m.get k).isSome = true) ∧
      m.keysSortedByLeaseID.Sorted (fun x y => x < y) ∧
      (∀ m' : LeaseKeysMapping, m'.entries.Perm m.entries →
        m'.keysSortedByLeaseID = m.keysSortedByLeaseID ∧ tableRows m' = tableRows m) ∧
      List.Forall₂ (fun k row => ∃ l, m.get k = some l ∧ row = l.generateTableRow)
        m.keysSortedByLeaseID (tableRows m) ∧
      (tableRows m).length = m.entries.length ∧
      tableRows LeaseKeysMapping.empty = [] := by
  have hmem : ∀ k, k ∈ m.keysSortedByLeaseID ↔ (m.get k).isSome = true := fun k => by
    rw [(LeaseKeysMapping.keysSorted_perm m).mem_iff, LeaseKeysMapping.mem_keys]
  have hrows : List.Forall₂ (fun k row => ∃ l, m.get k = some l ∧ row = l.generateTableRow)
      m.keysSortedByLeaseID (tableRows m) := by
    have h := forall₂_filterMap (fun lid => (m.get lid).map LeaseInfo.generateTableRow)
      m.keysSortedByLeaseID (fun k hk => by
        obtain ⟨l, hl⟩ := Option.isSome_iff_exists.1 ((hmem k).1 hk)
        simp [hl])
    refine h.imp (fun k row hkr => ?_)
    obtain ⟨l, hl, hrow⟩ := Option.map_eq_some'.1 hkr
    exact ⟨l, hl, hrow.symm⟩
  refine ⟨LeaseKeysMapping.keysSorted_nodup m, LeaseKeysMapping.keysSorted_perm m, hmem,
    LeaseKeysMapping.keysSorted_strict m, fun m' hp => ?_, hrows, ?_, rfl⟩
  · have hget := LeaseKeysMapping.get_eq_of_perm m m' hp
    exact ⟨LeaseKeysMapping.keysSorted_eq_of_get_eq m m' hget, tableRows_eq_of_get_eq m m' hget⟩
  · rw [← hrows.length_eq, (LeaseKeysMapping.keysSorted_perm m).length_eq,
      LeaseKeysMapping.keys_eq, List.length_map]

/-- C9 (order independence): two snapshots with unique ids that list the same entries
in different orders give, from the same state, the same map: the same record under
every id, the same entries up to enumeration order, and the same table rows. -/
theorem C9_order_independence (m : LeaseKeysMapping) (s1 s2 : Snapshot)
    (hperm : s1.Perm s2) (hun : (s1.map LeaseTimeToLiveResponse.ID).Nodup) :
    (∀ x, (reconcile m s2).get x = (reconcile m s1).get x) ∧
      (reconcile m s2).entries.Perm (reconcile m s1).entries ∧
      tableRows (reconcile m s2) = tableRows (reconcile m s1) := by
  have hun2 : (s2.map LeaseTimeToLiveResponse.ID).Nodup :=
    (hperm.map LeaseTimeToLiveResponse.ID).nodup_iff.1 hun
  have hget : ∀ x, (reconcile m s2).get x = (reconcile m s1).get x := by
    intro x
    by_cases hx : x ∈ s1.map LeaseTimeToLiveResponse.ID
    · obtain ⟨e, he, rfl⟩ := List.mem_map.1 hx
      rw [get_reconcile_of_mem m s1 hun e he,
        get_reconcile_of_mem m s2 hun2 e (hperm.mem_iff.1 he)]
    · have hx2 : x ∉ s2.map LeaseTimeToLiveResponse.ID := fun h =>
        hx ((hperm.map LeaseTimeToLiveResponse.ID).mem_iff.2 h)
      rw [get_reconcile_of_not_mem m s1 x hx, get_reconcile_of_not_mem m s2 x hx2]
  exact ⟨hget, LeaseKeysMapping.perm_of_get_eq _ _ hget, tableRows_eq_of_get_eq _ _ hget⟩

/-- Witness of C9: leases 10 and 3 listed in either order, from the state that knows
lease 10. -/
theorem C9_order_independence_witness :
    (∀ x, (reconcile exampleState [exampleOtherLease, exampleLease]).get x =
        (reconcile exampleState [exampleLease, exampleOtherLease]).get x) ∧
      (reconcile exampleState [exampleOtherLease, exampleLease]).entries.Perm
        (reconcile exampleState [exampleLease, exampleOtherLease]).entries ∧
      tableRows (reconcile exampleState [exampleOtherLease, exampleLease]) =
        tableRows (reconcile exampleState [exampleLease, exampleOtherLease]) :=
  C9_order_independence exampleState [exampleLease, exampleOtherLease]
    [exampleOtherLease, exampleLease] (List.Perm.swap _ _ _) (by decide)

/-- C10 (idempotence): reconciling twice in a row with the same snapshot with unique
ids gives the state the first cycle gave; the second cycle leaves every
`PrevAttachedKeys` as it is. -/
theorem C10_idempotence (m : LeaseKeysMapping) (leases : Snapshot)
    (hun : (leases.map LeaseTimeToLiveResponse.ID).Nodup) :
    reconcile (reconcile m leases) leases = reconcile m leases ∧
      ∀ x r, (reconcile m leases).get x = some r →
        ∃ r', (reconcile (reconcile m leases) leases).get x = some r' ∧
          r'.PrevAttachedKeys = r.PrevAttachedKeys := by
  have heq : reconcile (reconcile m leases) leases = reconcile m leases := by
    have hp : prune (reconcile m leases) leases = reconcile m leases :=
      prune_fixed _ _ (fun x hx => (mem_keys_reconcile m leases x).1 hx)
    have hstep : leases.foldl processLease (reconcile m leases) = reconcile m leases := by
      apply foldl_processLease_fixed
      intro e he
      rw [get_reconcile_of_mem m leases hun e he, updateRecord_idem]
    show leases.foldl processLease (prune (reconcile m leases) leases) = reconcile m leases
    rw [hp, hstep]
  refine ⟨heq, fun x r hr => ⟨r, ?_, rfl⟩⟩
  rw [heq]; exact hr

/-- Witness of C10: the state that knows lease 10 with `a`, `b`, reconciled twice with
lease 10 holding `a` and lease 3 holding `c`. -/
theorem C10_idempotence_witness :
    reconcile (reconcile exampleState [exampleLease, exampleOtherLease])
        [exampleLease, exampleOtherLease] =
      reconcile exampleState [exampleLease, exampleOtherLease] ∧
    (reconcile (reconcile exampleState [exampleLease, exampleOtherLease])
        [exampleLease, exampleOtherLease]).get 10 =
      some { ID := 10, AttachedKeys := ["a"], PrevAttachedKeys := ["b"], GrantedTTL := 60,
             TTL := 55 } :=
  ⟨(C10_idempotence exampleState [exampleLease, exampleOtherLease] (by decide)).1, by decide⟩

/-! ## Formatting -/

theorem digitChar_spec (k : Nat) (hk : k < 16) :
    digitValue (Nat.digitChar k) = k ∧ isLowerHexDigit (Nat.digitChar k) = true ∧
      (k < 10 → isDecimalDigit (Nat.digitChar k) = true) := by
  interval_cases k <;> decide

theorem fmtDigits_spec (base : Nat) (hb : 2 ≤ base) (hb16 : base ≤ 16) (fuel : Nat) :
    ∀ (n u : Nat) (acc : List Char), 1 ≤ n → n ≤ fuel → u < base ^ n →
      ∃ ds, fmtDigits base fuel u acc = ds ++ acc ∧ 1 ≤ ds.length ∧ ds.length ≤ n ∧
        (∀ c ∈ ds, ∃ k, k < base ∧ c = Nat.digitChar k) ∧ parseDigits base ds = u := by
  induction fuel with
  | zero => intro n u acc h1 h2; omega
  | succ fuel ih =>
    intro n u acc h1 h2 hu
    by_cases hbu : base ≤ u
    · have hn2 : 2 ≤ n := by
        by_contra hcon
        have : n = 1 := by omega
        subst this
        simp at hu
        omega
      have hdiv : u / base < base ^ (n - 1) := by
        rw [Nat.div_lt_iff_lt_mul (by omega)]
        calc u < base ^ n := hu
          _ = base ^ (n - 1 + 1) := by congr 1; omega
          _ = base ^ (n - 1) * base := pow_succ _ _
      obtain ⟨ds, hds, hlen1, hlen2, hall, hval⟩ :=
        ih (n - 1) (u / base) (Nat.digitChar (u % base) :: acc) (by omega) (by omega) hdiv
      refine ⟨ds ++ [Nat.digitChar (u % base)], ?_, ?_, ?_, ?_, ?_⟩
      · simp only [fmtDigits, if_pos hbu, hds, List.append_assoc, List.singleton_append]
      · simp
      · simp only [List.length_append, List.length_singleton]; omega
      · intro c hc
        rcases List.mem_append.1 hc with h | h
        · exact hall c h
        · exact ⟨u % base, Nat.mod_lt _ (by omega), by simpa using h⟩
      · have hmod : u % base < 16 := lt_of_lt_of_le (Nat.mod_lt _ (by omega)) hb16
        unfold parseDigits at hval ⊢
        rw [List.foldl_append, hval]
        simp only [List.foldl_cons, List.foldl_nil, (digitChar_spec _ hmod).1]
        exact Nat.div_add_mod u base
    · refine ⟨[Nat.digitChar u], ?_, ?_, ?_, ?_, ?_⟩
      · simp only [fmtDigits, if_neg hbu, List.singleton_append]
      · simp
      · simpa using h1
      · intro c hc
        exact ⟨u, by omega, by simpa using hc⟩
      · have hu16 : u < 16 := by omega
        simp [parseDigits, (digitChar_spec _ hu16).1]

theorem parseDigits_zeros_append (base k : Nat) (ds : List Char) :
    parseDigits base (List.replicate k '0' ++ ds) = parseDigits base ds := by
  have hz : ∀ k, List.foldl (fun acc c => base * acc + digitValue c) 0 (List.replicate k '0') = 0 := by
    intro k
    induction k with
    | zero => rfl
    | succ k ih =>
      rw [List.replicate_succ, List.foldl_cons]
      simpa [digitValue] using ih
  unfold parseDigits
  rw [List.foldl_append, hz]

theorem hexPadded_spec (u prec : Nat) (hu : u < 16 ^ 16) (hp : prec ≤ 16) :
    ∃ ds, fmtDigits 16 64 u [] = ds ∧ 1 ≤ ds.length ∧ ds.length ≤ 16 ∧
      (∀ c ∈ List.replicate (prec - ds.length) '0' ++ ds, isLowerHexDigit c = true) ∧
      parseDigits 16 (List.replicate (prec - ds.length) '0' ++ ds) = u ∧
      prec ≤ (List.replicate (prec - ds.length) '0' ++ ds).length ∧
      (List.replicate (prec - ds.length) '0' ++ ds).length ≤ 16 := by
  obtain ⟨ds, hds, hlen1, hlen2, hall, hval⟩ :=
    fmtDigits_spec 16 (by norm_num) (le_refl _) 64 16 u [] (by norm_num) (by norm_num) hu
  rw [List.append_nil] at hds
  refine ⟨ds, hds, hlen1, hlen2, ?_, ?_, ?_, ?_⟩
  · intro c hc
    rcases List.mem_append.1 hc with h | h
    · rw [(List.mem_replicate.1 h).2]; decide
    · obtain ⟨k, hk, rfl⟩ := hall c h
      exact (digitChar_spec k hk).2.1
  · rw [parseDigits_zeros_append, hval]
  · simp only [List.length_append, List.length_replicate]; omega
  · simp only [List.length_append, List.length_replicate]; omega

/-- The id column of a negative id: a minus sign, then the magnitude in base 16,
zero-padded to 15 digits (16 digits for the least 64-bit value). -/
theorem hexID_of_neg (l : LeaseInfo) (h0 : l.ID < 0) (h1 : -2 ^ 63 ≤ l.ID) :
    ∃ ds, l.HexID.data = '-' :: ds ∧ (∀ c ∈ ds, isLowerHexDigit c = true) ∧
      (parseDigits 16 ds : Int) = -l.ID ∧ 15 ≤ ds.length ∧ ds.length ≤ 16 := by
  have hmag : magnitude64 l.ID = (-l.ID).toNat := by
    unfold magnitude64
    rw [if_pos h0, Int.emod_eq_of_lt (by omega) (by omega)]
  have hu : (-l.ID).toNat < 16 ^ 16 := by
    have : (16 : Nat) ^ 16 = 2 ^ 64 := by norm_num
    omega
  obtain ⟨ds, hds, _, _, hall, hval, hlen, hlen16⟩ := hexPadded_spec _ 15 hu (by norm_num)
  refine ⟨List.replicate (15 - ds.length) '0' ++ ds, ?_, hall, ?_, hlen, hlen16⟩
  · have hlen2 : 16 - ((List.replicate (15 - ds.length) '0' ++ ds).length + 1) = 0 := by omega
    simp only [LeaseInfo.HexID, sprintf016x, h0, decide_True, if_true, hmag, hds,
      List.length_cons, hlen2, List.replicate_zero, List.nil_append]
  · rw [hval]; omega

theorem parseDecimal_FormatInt (i : Int) (h0 : -2 ^ 63 ≤ i) (h1 : i < 2 ^ 63) :
    parseDecimal (FormatInt i 10) = i := by
  have hu : magnitude64 i < 10 ^ 20 := by
    unfold magnitude64
    split
    · rw [Int.emod_eq_of_lt (by omega) (by omega)]
      have : (2 : Int) ^ 63 < 10 ^ 20 := by norm_num
      have h10 : ((10 ^ 20 : Nat) : Int) = 10 ^ 20 := by norm_num
      omega
    · have : (2 : Int) ^ 63 < 10 ^ 20 := by norm_num
      have h10 : ((10 ^ 20 : Nat) : Int) = 10 ^ 20 := by norm_num
      omega
  obtain ⟨ds, hds, hlen1, _, hall, hval⟩ :=
    fmtDigits_spec 10 (by norm_num) (by norm_num) 64 20 (magnitude64 i) []
      (by norm_num) (by norm_num) hu
  rw [List.append_nil] at hds
  by_cases hi : i < 0
  · have hmag : magnitude64 i = (-i).toNat := by
      unfold magnitude64
      rw [if_pos hi, Int.emod_eq_of_lt (by omega) (by omega)]
    rw [hmag] at hval
    simp only [parseDecimal, FormatInt, hds, if_pos hi, List.head?_cons, if_true,
      List.tail_cons, hval]
    omega
  · have hmag : magnitude64 i = i.toNat := by
      unfold magnitude64
      rw [if_neg hi]
    have hhead : ds.head? ≠ some '-' := by
      cases ds with
      | nil => simp
      | cons c cs =>
        obtain ⟨k, hk, hc⟩ := hall c (List.mem_cons_self _ _)
        have hdec := (digitChar_spec k (by omega)).2.2 (by omega)
        rw [← hc] at hdec
        intro hEq
        simp only [List.head?_cons, Option.some.injEq] at hEq
        rw [hEq] at hdec
        exact absurd hdec (by decide)
    rw [hmag] at hval
    simp only [parseDecimal, FormatInt, hds, if_neg hi, if_neg hhead, hval]
    omega

theorem intercalate_go_eq_foldl (sep : String) (rest : List String) (a : String) :
    String.intercalate.go a sep rest = rest.foldl (fun b s => b ++ sep ++ s) a := by
  induction rest generalizing a with
  | nil => rfl
  | cons x rest ih => simp [String.intercalate.go, ih]

theorem Join_eq_intercalate (elems : List String) (sep : String) :
    Join elems sep = sep.intercalate elems := by
  cases elems with
  | nil => rfl
  | cons a rest =>
    cases rest with
    | nil => rfl
    | cons b rest => simp [Join, String.intercalate, intercalate_go_eq_foldl]

/-! ## The claims about rendering -/

/-- C7 (hex id format), as amended: for a lease whose id is not negative (below
`2^63`), `HexID` is a string of exactly 16 characters, each one of `0`-`9`, `a`-`f`,
that read in base 16 give the id. -/
theorem C7_hex_id_format (l : LeaseInfo) (h0 : 0 ≤ l.ID) (h1 : l.ID < 2 ^ 63) :
    l.HexID.length = 16 ∧ (∀ c ∈ l.HexID.data, isLowerHexDigit c = true) ∧
      (parseDigits 16 l.HexID.data : Int) = l.ID := by
  have hneg : ¬ l.ID < 0 := not_lt.2 h0
  have hmag : magnitude64 l.ID = l.ID.toNat := by
    unfold magnitude64
    rw [if_neg hneg]
  have hu : l.ID.toNat < 16 ^ 16 := by
    have : (16 : Nat) ^ 16 = 2 ^ 64 := by norm_num
    omega
  obtain ⟨ds, hds, _, _, hall, hval, hlen, hlen16⟩ := hexPadded_spec _ 16 hu (le_refl _)
  have hlen0 : 16 - (List.replicate (16 - ds.length) '0' ++ ds).length = 0 := by omega
  have hdata : l.HexID.data = List.replicate (16 - ds.length) '0' ++ ds := by
    simp only [LeaseInfo.HexID, sprintf016x, hneg, decide_False, Bool.false_eq_true, if_false,
      hmag, hds, hlen0, List.replicate_zero, List.nil_append]
  refine ⟨?_, ?_, ?_⟩
  · rw [String.length, hdata]; omega
  · rw [hdata]; exact hall
  · rw [hdata, hval]; omega

/-- Witness of C7: the id 255 is rendered as fourteen zeros and `ff`. -/
theorem C7_hex_id_format_witness :
    exampleRecord.HexID = "00000000000000ff" ∧
      (exampleRecord.HexID.length = 16 ∧
        (∀ c ∈ exampleRecord.HexID.data, isLowerHexDigit c = true) ∧
        (parseDigits 16 exampleRecord.HexID.data : Int) = 255) :=
  ⟨by decide, C7_hex_id_format exampleRecord (by decide) (by decide)⟩

/-- Counterexample to C7 as stated: the 64-bit id -1 is rendered with a minus sign,
which is no hexadecimal digit, and the least 64-bit id is rendered in 17 characters. -/
theorem C7_hex_id_counterexample :
    exampleNegativeId.HexID = "-000000000000001" ∧
      ¬ (∀ c ∈ exampleNegativeId.HexID.data, isLowerHexDigit c = true) ∧
      exampleLeastId.HexID = "-8000000000000000" ∧
      ¬ (exampleLeastId.HexID.length = 16) := by
  decide

/-- C8 (row content): the row of a record with 64-bit TTL fields has exactly five
columns: `HexID`, the decimal renderings of `GrantedTTL` and `TTL` (strings that read
back as these numbers), and `AttachedKeys` and `PrevAttachedKeys` each joined with a
comma and a blank; no attached key gives the empty fourth column, a single one gives
that key alone. -/
theorem C8_row_content (l : LeaseInfo)
    (hG : -2 ^ 63 ≤ l.GrantedTTL ∧ l.GrantedTTL < 2 ^ 63)
    (hT : -2 ^ 63 ≤ l.TTL ∧ l.TTL < 2 ^ 63) :
    l.generateTableRow.length = 5 ∧
      (∃ granted ttl, l.generateTableRow =
        [l.HexID, granted, ttl, ", ".intercalate l.AttachedKeys,
          ", ".intercalate l.PrevAttachedKeys] ∧
        granted = FormatInt l.GrantedTTL 10 ∧ parseDecimal granted = l.GrantedTTL ∧
        ttl = FormatInt l.TTL 10 ∧ parseDecimal ttl = l.TTL) ∧
      (l.AttachedKeys = [] → l.generateTableRow.get? 3 = some "") ∧
      (∀ k, l.AttachedKeys = [k] → l.generateTableRow.get? 3 = some k) := by
  refine ⟨rfl, ⟨_, _, ?_, rfl, parseDecimal_FormatInt _ hG.1 hG.2, rfl,
    parseDecimal_FormatInt _ hT.1 hT.2⟩, ?_, ?_⟩
  · simp [LeaseInfo.generateTableRow, Join_eq_intercalate]
  · intro h; simp [LeaseInfo.generateTableRow, h, Join]
  · intro k h; simp [LeaseInfo.generateTableRow, h, Join]

/-- Witness of C8: the row of a record with two attached keys and one detached key. -/
theorem C8_row_content_witness :
    exampleRecord.generateTableRow = ["00000000000000ff", "60", "-1", "a, b", "c"] ∧
      exampleRecord.generateTableRow.length = 5 ∧
      parseDecimal "60" = 60 ∧ parseDecimal "-1" = -1 :=
  ⟨by decide,
    (C8_row_content exampleRecord (by decide) (by decide)).1, by decide, by decide⟩

end EtcdLeaseTool
